import Mathlib

/-!
A shallow embedding of `emailgetter.go`.

The program looks up the public e-mail address of a GitHub user through three
strategies (user API, profile page, commit activity) and can fan out over the
user's followers or following listing.

Modelling conventions.

* A Go `string` is a sequence of bytes.  It is represented by a Lean `String`
  whose characters stand for the bytes (code points below 256).  All patterns
  and literals of the program are ASCII, and the only character class used is
  `[^"]`, so matching byte by byte agrees with matching rune by rune.
* The network is an oracle `Network`: given the URLs requested so far and the
  URL requested now, it answers with the body of the response, or with `none`
  when the transport fails.  `Request` panics on a transport failure, which
  ends the process; `Outcome.panic` carries the state at that moment.
* Standard output is the list of lines printed so far.
* A goroutine running `RetrieveEmail` is a task whose body runs without
  interruption; `main` is run against a schedule that picks, step by step,
  which runnable piece of work goes next.
-/

namespace Emailgetter

/-! ## Text primitives from the Go standard library -/

/-- Whether `sub` occurs as a contiguous block of the character list. -/
def containsChars (sub : List Char) : List Char → Bool
  | [] => sub.isPrefixOf []
  | c :: t => sub.isPrefixOf (c :: t) || containsChars sub t

/-- Go `strings.Contains(s, substr)`. -/
def Contains (s substr : String) : Bool := containsChars substr.data s.data

/-- Worker of `Replace`: `skip` counts the characters of an occurrence of `old`
that was just replaced and still has to be passed over. -/
def replaceFrom (old new : List Char) : Nat → List Char → List Char
  | _, [] => []
  | skip + 1, _ :: t => replaceFrom old new skip t
  | 0, c :: t =>
    if old.isPrefixOf (c :: t) then new ++ replaceFrom old new (old.length - 1) t
    else c :: replaceFrom old new 0 t

/-- Go `strings.Replace(s, old, new, -1)` for a non-empty `old`: every
non-overlapping occurrence of `old`, found from the left, becomes `new`. -/
def Replace (s old new : String) : String :=
  String.mk (replaceFrom old.data new.data 0 s.data)

/-- A regular expression of the shape `pre([^"]+)post`, where `pre` and `post`
are literal texts and `post` begins with a double quote.  The four expressions
of the program all have this shape. -/
structure Pattern where
  pre : List Char
  post : List Char

/-- Match of a `Pattern` starting exactly at the head of `s`: the capture and
the length of the whole match.  Because `post` begins with a double quote and
the capture holds none, the capture of a match is the longest run of characters
other than the double quote that follows `pre`. -/
def matchHere (p : Pattern) (s : List Char) : Option (List Char × Nat) :=
  if p.pre.isPrefixOf s then
    let r := s.drop p.pre.length
    let cap := r.takeWhile (fun c => c != '"')
    let after := r.dropWhile (fun c => c != '"')
    if !cap.isEmpty && p.post.isPrefixOf after then
      some (cap, p.pre.length + cap.length + p.post.length)
    else none
  else none

/-- Capture of the leftmost match of the pattern, if there is a match. -/
def findFirst (p : Pattern) : List Char → Option (List Char)
  | [] => none
  | c :: t =>
    match matchHere p (c :: t) with
    | some (cap, _) => some cap
    | none => findFirst p t

/-- Captures of the successive non-overlapping matches, from the left; `skip`
counts the characters of the last match that still have to be passed over. -/
def findAllFrom (p : Pattern) : Nat → List Char → List (List Char)
  | _, [] => []
  | skip + 1, _ :: t => findAllFrom p skip t
  | 0, c :: t =>
    match matchHere p (c :: t) with
    | some (cap, n) => cap :: findAllFrom p (n - 1) t
    | none => findAllFrom p 0 t

/-- Go `pattern.FindStringSubmatch(s)`, reduced to the one capture group:
`some c` stands for the slice `[whole, c]` of length 2, `none` for `nil`. -/
def FindStringSubmatch (p : Pattern) (s : String) : Option String :=
  (findFirst p s.data).map String.mk

/-- Go `pattern.FindAllStringSubmatch(s, -1)`, reduced to the capture group of
each match. -/
def FindAllStringSubmatch (p : Pattern) (s : String) : List String :=
  (findAllFrom p 0 s.data).map String.mk

/-- The expression `"email": "([^"]+)",`. -/
def emailPattern : Pattern := ⟨"\"email\": \"".data, "\",".data⟩

/-- The expression `"mailto:([^"]+)"`. -/
def mailtoPattern : Pattern := ⟨"\"mailto:".data, "\"".data⟩

/-- The expression `"full_name": "([^"]+)",`. -/
def fullNamePattern : Pattern := ⟨"\"full_name\": \"".data, "\",".data⟩

/-- The expression `<img alt="@([^"]+)"`. -/
def imgAltPattern : Pattern := ⟨"<img alt=\"@".data, "\"".data⟩

/-- Go `ishex` of package `net/url`. -/
def ishex (c : Char) : Bool :=
  ('0' ≤ c && c ≤ '9') || ('a' ≤ c && c ≤ 'f') || ('A' ≤ c && c ≤ 'F')

/-- Go `unhex` of package `net/url`. -/
def unhex (c : Char) : Nat :=
  if '0' ≤ c && c ≤ '9' then c.toNat - '0'.toNat
  else if 'a' ≤ c && c ≤ 'f' then c.toNat - 'a'.toNat + 10
  else if 'A' ≤ c && c ≤ 'F' then c.toNat - 'A'.toNat + 10
  else 0

/-- Go `unescape(s, encodeQueryComponent)` of package `net/url`: a `%` must be
followed by two hexadecimal digits and the three bytes become the byte they
spell, a `+` becomes a space, any other byte is kept; `none` is the
`EscapeError`. -/
def unescape : List Char → Option (List Char)
  | [] => some []
  | c :: t =>
    if c = '%' then
      match t with
      | a :: b :: t' =>
        if ishex a && ishex b then
          (unescape t').map (fun r => Char.ofNat (unhex a * 16 + unhex b) :: r)
        else none
      | _ => none
    else if c = '+' then (unescape t).map (fun r => ' ' :: r)
    else (unescape t).map (fun r => c :: r)

/-- Go `url.QueryUnescape(s)`. -/
def QueryUnescape (s : String) : Option String := (unescape s.data).map String.mk

/-- Go `strconv.Itoa`. -/
def Itoa (n : Int) : String := toString n

/-! ## The getter and its environment -/

/-- The struct `EmailGetter`. -/
structure EmailGetter where
  Addresses : List String
  RateLimit : Bool
  OnlyUsers : Bool
  PageNumber : Int

/-- The running process: the getter, the URLs handed to `Request` so far
(oldest first) and the lines printed on standard output so far. -/
structure Process where
  getter : EmailGetter
  requests : List String
  stdout : List String

/-- The network seen by `Request`: from the URLs requested earlier and the URL
requested now to the body of the response; `none` is a transport failure. -/
abbrev Network := List String → String → Option String

/-- Result of a piece of the program: it returns a value in a state, or it
panics (which ends the process) in a state. -/
inductive Outcome (α : Type) where
  | ok (value : α) (p : Process)
  | panic (p : Process)

/-- The process state an outcome ends in. -/
def Outcome.proc {α : Type} : Outcome α → Process
  | .ok _ p => p
  | .panic p => p

/-- Whether the outcome is a normal return rather than a panic. -/
def Outcome.completed {α : Type} : Outcome α → Bool
  | .ok _ _ => true
  | .panic _ => false

/-- The method `Request`: the response body, or a panic when the transport
fails.  Either way the URL was requested. -/
def Request (net : Network) (url : String) (p : Process) : Outcome String :=
  match net p.requests url with
  | some content => .ok content { p with requests := p.requests ++ [url] }
  | none => .panic { p with requests := p.requests ++ [url] }

/-- The loop of `AppendEmail`: whether some item of the list equals `email`. -/
def isAlreadyAdded (email : String) : List String → Bool
  | [] => false
  | item :: rest => if item = email then true else isAlreadyAdded email rest

/-- The method `AppendEmail`, on the getter. -/
def EmailGetter.AppendEmail (g : EmailGetter) (email : String) : Bool × EmailGetter :=
  if isAlreadyAdded email g.Addresses = false then
    (true, { g with Addresses := g.Addresses ++ [email] })
  else
    (true, g)

/-- The method `AppendEmail`, on the process. -/
def AppendEmail (email : String) (p : Process) : Outcome Bool :=
  .ok (p.getter.AppendEmail email).1 { p with getter := (p.getter.AppendEmail email).2 }

/-- The method `PrintEmails`. -/
def PrintEmails (p : Process) : Process :=
  { p with stdout := p.stdout ++ p.getter.Addresses }

/-- URL of the user API endpoint. -/
def apiUrl (username : String) : String := "https://api.github.com/users/" ++ username

/-- URL of the profile page. -/
def profileUrl (username : String) : String := "https://github.com/" ++ username

/-- URL of the repositories endpoint. -/
def reposUrl (username : String) : String :=
  "https://api.github.com/users/" ++ username ++ "/repos?type=owner&sort=updated"

/-- URL of the commit list of a repository. -/
def commitsUrl (fullName : String) : String :=
  "https://api.github.com/repos/" ++ fullName ++ "/commits"

/-- URL of a listing page, as `FriendEmails` builds it. -/
def listingUrl (username group : String) (pageNumber : Int) : String :=
  "https://github.com/" ++ username ++ "/" ++
    (if pageNumber > 1 then group ++ "?page=" ++ Itoa pageNumber else group)

/-- The method `ExtractFromAPI`. -/
def ExtractFromAPI (net : Network) (username : String) (p : Process) : Outcome Bool :=
  if p.getter.RateLimit = true then .ok false p
  else
    match Request net (apiUrl username) p with
    | .panic q => .panic q
    | .ok output q =>
      if Contains output "rate limit exceeded" = true then
        .ok false { q with getter := { q.getter with RateLimit := true } }
      else
        match FindStringSubmatch emailPattern output with
        | some data1 => if data1 ≠ "" then AppendEmail data1 q else .ok false q
        | none => .ok false q

/-- The method `ExtractFromProfile`. -/
def ExtractFromProfile (net : Network) (username : String) (p : Process) : Outcome Bool :=
  match Request net (profileUrl username) p with
  | .panic q => .panic q
  | .ok content q =>
    match FindStringSubmatch mailtoPattern content with
    | some data1 =>
      if data1 ≠ "" then
        match QueryUnescape (Replace (Replace data1 ";" "") "&#x" "%") with
        | some out => AppendEmail out q
        | none => .ok false q
      else .ok false q
    | none => .ok false q

/-- The loop of `ExtractFromActivity` over the matches. -/
def appendAll : List String → Process → Process
  | [], p => p
  | m :: rest, p => appendAll rest (AppendEmail m p).proc

/-- The method `ExtractFromActivity`. -/
def ExtractFromActivity (net : Network) (username : String) (p : Process) : Outcome Bool :=
  if p.getter.RateLimit = true then .ok false p
  else
    match Request net (reposUrl username) p with
    | .panic q => .panic q
    | .ok content q =>
      match FindStringSubmatch fullNamePattern content with
      | some data1 =>
        if data1 ≠ "" then
          match Request net (commitsUrl data1) q with
          | .panic r => .panic r
          | .ok commits r =>
            .ok (decide ((FindAllStringSubmatch emailPattern commits).length > 0))
              (appendAll (FindAllStringSubmatch emailPattern commits) r)
        else .ok false q
      | none => .ok false q

/-- The body of the method `RetrieveEmail` (its `wg.Done()` is the removal of
the task from the pending tasks, see `step`). -/
def RetrieveEmail (net : Network) (username : String) (p : Process) : Outcome Unit :=
  if p.getter.OnlyUsers = true then .ok () { p with stdout := p.stdout ++ [username] }
  else
    match ExtractFromAPI net username p with
    | .panic q => .panic q
    | .ok found q =>
      if found = false then
        match ExtractFromProfile net username q with
        | .panic r => .panic r
        | .ok found r =>
          if found = false then
            match ExtractFromActivity net username r with
            | .panic t => .panic t
            | .ok _ t => .ok () t
          else .ok () r
      else .ok () q

/-- The loop of `FriendEmails`: the usernames for which a `RetrieveEmail`
goroutine is started, in the order in which they are started. -/
def spawnLoop (username : String) : List String → List String → List String
  | spawned, [] => spawned
  | spawned, data1 :: rest =>
    if data1 ≠ username then spawnLoop username (spawned ++ [data1]) rest
    else spawnLoop username spawned rest

/-- The method `FriendEmails`; the value is the list of usernames for which it
started a `RetrieveEmail` goroutine. -/
def FriendEmails (net : Network) (username group : String) (p : Process) :
    Outcome (List String) :=
  match Request net (listingUrl username group p.getter.PageNumber) p with
  | .panic q => .panic q
  | .ok content q =>
    .ok (spawnLoop username [] (FindAllStringSubmatch imgAltPattern content)) q

/-! ## The program -/

/-- The command-line flags. -/
structure Flags where
  username : String
  followers : Bool
  following : Bool
  noemails : Bool
  page : Int

/-- The lines that `main` prints on standard output when the username is
missing (`flag.PrintDefaults` writes to standard error). -/
def usageLines : List String :=
  ["Missing username to query",
   "E-Mail Getter",
   "  http://cixtor.com/",
   "  https://github.com/cixtor/emailgetter",
   "  https://en.wikipedia.org/wiki/Email_address_harvesting",
   "Usage:"]

/-- Work of `main` that is still outstanding: the `RetrieveEmail` goroutines
started and not yet run, and the listing that `main` itself has still to
expand, if any. -/
structure Tasks where
  pending : List String
  expand : Option String

/-- Run every task of the list, in order. -/
def runAll (net : Network) : List String → Process → Outcome Unit
  | [], p => .ok () p
  | u :: rest, p =>
    match RetrieveEmail net u p with
    | .panic q => .panic q
    | .ok _ q => runAll net rest q

/-- The step taken when the schedule does not single out a task: `main`
expands the listing if it still has to, otherwise the oldest pending task
runs. -/
def defaultStep (net : Network) (root : String) (t : Tasks) (p : Process) : Outcome Tasks :=
  match t.expand with
  | some group =>
    match FriendEmails net root group p with
    | .panic q => .panic q
    | .ok spawned q => .ok { pending := t.pending ++ spawned, expand := none } q
  | none =>
    match t.pending with
    | [] => .ok t p
    | u :: rest =>
      match RetrieveEmail net u p with
      | .panic q => .panic q
      | .ok _ q => .ok { t with pending := rest } q

/-- One scheduling step: choice `i + 1` runs the pending task number `i` when
there is one, any other choice takes the default step. -/
def step (net : Network) (root : String) (choice : Nat) (t : Tasks) (p : Process) :
    Outcome Tasks :=
  match choice with
  | 0 => defaultStep net root t p
  | i + 1 =>
    match t.pending[i]? with
    | some u =>
      match RetrieveEmail net u p with
      | .panic q => .panic q
      | .ok _ q => .ok { t with pending := t.pending.take i ++ t.pending.drop (i + 1) } q
    | none => defaultStep net root t p

/-- Finish the outstanding work: the listing first, then the pending tasks in
order. -/
def drain (net : Network) (root : String) (t : Tasks) (p : Process) : Outcome Unit :=
  match t.expand with
  | some group =>
    match FriendEmails net root group p with
    | .panic q => .panic q
    | .ok spawned q => runAll net (t.pending ++ spawned) q
  | none => runAll net t.pending p

/-- Run the outstanding work under a schedule, up to `wg.Wait()` returning:
the choices are followed one by one, and what is left when they are used up is
drained. -/
def exec (net : Network) (root : String) : List Nat → Tasks → Process → Outcome Unit
  | [], t, p => drain net root t p
  | c :: cs, t, p =>
    match step net root c t p with
    | .panic q => .panic q
    | .ok t' q => exec net root cs t' q

/-- The state in which `main` starts. -/
def initial : Process :=
  { getter := { Addresses := [], RateLimit := false, OnlyUsers := false, PageNumber := 0 },
    requests := [], stdout := [] }

/-- The function `main`, after `flag.Parse()`, under a schedule of its
goroutines. -/
def main (net : Network) (f : Flags) (schedule : List Nat) : Outcome Unit :=
  let p0 : Process :=
    if f.username = "" then { initial with stdout := usageLines } else initial
  let p1 : Process := { p0 with getter := { p0.getter with PageNumber := f.page } }
  let p2 : Process :=
    if f.noemails = true then { p1 with getter := { p1.getter with OnlyUsers := true } } else p1
  let tasks : Tasks :=
    { pending := [f.username],
      expand := if f.following = true then some "following"
                else if f.followers = true then some "followers" else none }
  match exec net f.username schedule tasks p2 with
  | .panic q => .panic q
  | .ok _ q => .ok () (PrintEmails q)

/-- A getter operation, for sequences of operations on one getter. -/
inductive Op where
  | appendEmail (email : String)
  | extractFromAPI (username : String)
  | extractFromProfile (username : String)
  | extractFromActivity (username : String)
  | retrieveEmail (username : String)
  | friendEmails (username group : String)
  | printEmails

/-- The state after one getter operation (the state at the panic if it
panics), and whether the process is still alive. -/
def Op.run (net : Network) : Op → Process → Outcome Unit
  | .appendEmail email, p => .ok () (AppendEmail email p).proc
  | .extractFromAPI u, p =>
    match ExtractFromAPI net u p with
    | .panic q => .panic q
    | .ok _ q => .ok () q
  | .extractFromProfile u, p =>
    match ExtractFromProfile net u p with
    | .panic q => .panic q
    | .ok _ q => .ok () q
  | .extractFromActivity u, p =>
    match ExtractFromActivity net u p with
    | .panic q => .panic q
    | .ok _ q => .ok () q
  | .retrieveEmail u, p => RetrieveEmail net u p
  | .friendEmails u g, p =>
    match FriendEmails net u g p with
    | .panic q => .panic q
    | .ok _ q => .ok () q
  | .printEmails, p => .ok () (PrintEmails p)

/-- A sequence of getter operations, one after the other; a panic ends it. -/
def runOps (net : Network) : List Op → Process → Outcome Unit
  | [], p => .ok () p
  | op :: rest, p =>
    match op.run net p with
    | .panic q => .panic q
    | .ok _ q => runOps net rest q

/-- Record a sequence of values with `AppendEmail`, one after the other. -/
def recordAll (values : List String) (g : EmailGetter) : EmailGetter :=
  values.foldl (fun g v => (g.AppendEmail v).2) g

/-! ## Sample networks, for concrete runs -/

/-- A network in which user `u` has an e-mail in the user API (the field is
followed by a comma), another one on the profile page, and one repository
whose commit list names two authors, one of them twice. -/
def sampleNetwork : Network := fun _ url =>
  if url = "https://api.github.com/users/u" then
    some "\x7b\"login\": \"u\", \"email\": \"a@x.com\", \"bio\": null\x7d"
  else if url = "https://github.com/u" then
    some "<a href=\"mailto:b%40x.com\">mail</a>"
  else if url = "https://api.github.com/users/u/repos?type=owner&sort=updated" then
    some "[\x7b\"full_name\": \"u/r\", \"fork\": false\x7d]"
  else if url = "https://api.github.com/repos/u/r/commits" then
    some "\"email\": \"c@x.com\", \"email\": \"d@x.com\", \"email\": \"c@x.com\","
  else if url = "https://api.github.com/users/v/repos?type=owner&sort=updated" then
    some "[]"
  else none

/-- A network whose user API answers exactly `{"email": "a@x.com"}` for user
`u`, every other endpoint answering with an empty body. -/
def scenarioANetwork : Network := fun _ url =>
  if url = "https://api.github.com/users/u" then some "\x7b\"email\": \"a@x.com\"\x7d"
  else some ""

/-- A network whose user API answers `{"email": "a@x.com",}` for user `u`,
the e-mail field followed by a comma; every other endpoint answers with an
empty body. -/
def scenarioACommaNetwork : Network := fun _ url =>
  if url = "https://api.github.com/users/u" then some "\x7b\"email\": \"a@x.com\",\x7d"
  else some ""

/-- A network in which the followers page of user `r` lists `a`, `r` itself
and `a` once more. -/
def listingNetwork : Network := fun _ url =>
  if url = "https://github.com/r/followers" then
    some "<img alt=\"@a\" /><img alt=\"@r\" /><img alt=\"@a\" />"
  else none

/-- A network in which the following page of user `r` lists `a`, `b` and `c`;
no other URL can be fetched. -/
def scenarioBNetwork : Network := fun _ url =>
  if url = "https://github.com/r/following" then
    some "<img alt=\"@a\" /><img alt=\"@b\" /><img alt=\"@c\" />"
  else none

/-- A network in which the quota of the API is used up. -/
def limitedNetwork : Network := fun _ _ =>
  some "\x7b\"message\": \"API rate limit exceeded for 10.0.0.1.\"\x7d"

/-- A network whose user API answers exactly `{"email": "a@x.com"}` for user
`u`, the e-mail being the last field with no comma after it, and in which the
profile page of `u` carries the mailto link of `b@x.com`; every other endpoint
answers with an empty body. -/
def lastFieldNetwork : Network := fun _ url =>
  if url = "https://api.github.com/users/u" then some "\x7b\"email\": \"a@x.com\"\x7d"
  else if url = "https://github.com/u" then some "<a href=\"mailto:b%40x.com\">mail</a>"
  else some ""

/-- A network in which the profile page of user `u` carries the mailto link of
an address with a plus sign. -/
def plusNetwork : Network := fun _ url =>
  if url = "https://github.com/u" then some "<a href=\"mailto:a+b%40x.com\">mail</a>"
  else some ""

/-- A network in which the profile page of user `u` carries a mailto link
whose escape is cut short. -/
def malformedNetwork : Network := fun _ url =>
  if url = "https://github.com/u" then some "<a href=\"mailto:a%4\">mail</a>"
  else some ""

/-! ## Definitions that follow the words of the specification -/

/-- The sequence with every later repeat of a value removed: the entry at
position `i` is kept exactly when its value does not occur before position
`i`. -/
def removeLaterRepeats (values : List String) : List String :=
  (List.range values.length).filterMap (fun i =>
    match values[i]? with
    | some v => if v ∈ values.take i then none else some v
    | none => none)

/-- Standard percent-decoding: each `%` followed by two hexadecimal digits
becomes the byte they spell, every other byte is kept; `none` when a `%` is
not followed by two hexadecimal digits. -/
def percentDecodeChars : List Char → Option (List Char)
  | [] => some []
  | c :: t =>
    if c = '%' then
      match t with
      | a :: b :: t' =>
        if ishex a && ishex b then
          (percentDecodeChars t').map (fun r => Char.ofNat (unhex a * 16 + unhex b) :: r)
        else none
      | _ => none
    else (percentDecodeChars t).map (fun r => c :: r)

/-- Standard percent-decoding of a string. -/
def percentDecode (s : String) : Option String := (percentDecodeChars s.data).map String.mk

/-! ## `AppendEmail` and the removal of later repeats -/

theorem isAlreadyAdded_eq (email : String) (l : List String) :
    isAlreadyAdded email l = decide (email ∈ l) := by
  induction l with
  | nil => simp [isAlreadyAdded]
  | cons item rest ih =>
    by_cases h : item = email
    · simp [isAlreadyAdded, h]
    · have h' : ¬ email = item := fun e => h e.symm
      simp [isAlreadyAdded, h, h', ih]

theorem AppendEmail_addresses (g : EmailGetter) (v : String) :
    (g.AppendEmail v).2.Addresses = if v ∈ g.Addresses then g.Addresses else g.Addresses ++ [v] := by
  unfold EmailGetter.AppendEmail
  rw [isAlreadyAdded_eq]
  by_cases h : v ∈ g.Addresses <;> simp [h]

theorem AppendEmail_fst (g : EmailGetter) (v : String) : (g.AppendEmail v).1 = true := by
  unfold EmailGetter.AppendEmail
  split <;> rfl

theorem AppendEmail_rateLimit (g : EmailGetter) (v : String) :
    (g.AppendEmail v).2.RateLimit = g.RateLimit := by
  unfold EmailGetter.AppendEmail
  split <;> rfl

theorem removeLaterRepeats_append (vs : List String) (v : String) :
    removeLaterRepeats (vs ++ [v]) = removeLaterRepeats vs ++ (if v ∈ vs then [] else [v]) := by
  unfold removeLaterRepeats
  rw [List.length_append, List.length_singleton, List.range_succ, List.filterMap_append]
  congr 1
  · apply List.filterMap_congr
    intro i hi
    have hlt : i < vs.length := List.mem_range.mp hi
    rw [List.getElem?_append_left hlt, List.take_append_of_le_length (Nat.le_of_lt hlt)]
  · by_cases h : v ∈ vs <;> simp [h]

theorem mem_removeLaterRepeats (vs : List String) (v : String) :
    v ∈ removeLaterRepeats vs ↔ v ∈ vs := by
  induction vs using List.reverseRecOn with
  | nil => simp [removeLaterRepeats]
  | append_singleton xs x ih =>
    rw [removeLaterRepeats_append]
    by_cases hx : x ∈ xs
    · simp only [hx, if_true, List.append_nil, ih, List.mem_append, List.mem_singleton]
      constructor
      · intro h; exact Or.inl h
      · rintro (h | h)
        · exact h
        · rw [h]; exact hx
    · simp [hx, ih]

theorem nodup_removeLaterRepeats (vs : List String) : (removeLaterRepeats vs).Nodup := by
  induction vs using List.reverseRecOn with
  | nil => simp [removeLaterRepeats]
  | append_singleton xs x ih =>
    rw [removeLaterRepeats_append]
    by_cases hx : x ∈ xs
    · simpa [hx] using ih
    · simp only [hx, if_false]
      rw [List.nodup_append]
      refine ⟨ih, List.nodup_singleton x, ?_⟩
      intro a ha hb
      rw [List.mem_singleton] at hb
      subst hb
      exact hx ((mem_removeLaterRepeats xs a).mp ha)

theorem recordAll_append (vs : List String) (v : String) (g : EmailGetter) :
    recordAll (vs ++ [v]) g = ((recordAll vs g).AppendEmail v).2 := by
  simp [recordAll, List.foldl_append]

theorem recordAll_addresses (vs : List String) (g : EmailGetter) :
    (recordAll vs g).Addresses =
      g.Addresses ++ removeLaterRepeats (vs.filter (fun v => decide (v ∉ g.Addresses))) := by
  induction vs using List.reverseRecOn with
  | nil => simp [recordAll, removeLaterRepeats]
  | append_singleton xs x ih =>
    rw [recordAll_append, AppendEmail_addresses, ih, List.filter_append]
    by_cases hx : x ∈ g.Addresses
    · simp [hx]
    · have hf : List.filter (fun v => decide (v ∉ g.Addresses)) [x] = [x] := by simp [hx]
      rw [hf, removeLaterRepeats_append]
      by_cases hxs : x ∈ xs
      · simp [hx, hxs, mem_removeLaterRepeats]
      · simp [hx, hxs, mem_removeLaterRepeats]

/-! ## Claims on `AppendEmail`, and the URLs of the endpoints -/

/-- C1: recording any finite sequence of values with `AppendEmail`, starting
from an empty `Addresses` list, leaves exactly that sequence with every later
repeat of a value removed; the list has no duplicates, every recorded value
occurs in it exactly once, and recording the same value twice leaves it
once. -/
theorem recordAll_eq_removeLaterRepeats (values : List String) (r o : Bool) (n : Int) :
    (recordAll values ⟨[], r, o, n⟩).Addresses = removeLaterRepeats values
    ∧ (recordAll values ⟨[], r, o, n⟩).Addresses.Nodup
    ∧ (∀ v ∈ values, (recordAll values ⟨[], r, o, n⟩).Addresses.count v = 1)
    ∧ (∀ v : String, (recordAll [v, v] ⟨[], r, o, n⟩).Addresses = [v]) := by
  have key : ∀ vs : List String,
      (recordAll vs ⟨[], r, o, n⟩).Addresses = removeLaterRepeats vs := by
    intro vs
    rw [recordAll_addresses]
    simp
  refine ⟨key values, ?_, ?_, ?_⟩
  · rw [key]; exact nodup_removeLaterRepeats values
  · intro v hv
    rw [key]
    exact List.count_eq_one_of_mem (nodup_removeLaterRepeats values)
      ((mem_removeLaterRepeats values v).mpr hv)
  · intro v
    rw [key, show [v, v] = ([] ++ [v]) ++ [v] from rfl, removeLaterRepeats_append,
      removeLaterRepeats_append]
    simp [removeLaterRepeats]

/-- C2, as stated, fails: with `"a"` already in `Addresses`, `AppendEmail "a"`
returns `true` although nothing was added. -/
theorem AppendEmail_returns_true_on_repeat :
    ¬ (((EmailGetter.mk ["a"] false false 1).AppendEmail "a").1 = true
        ↔ "a" ∉ (EmailGetter.mk ["a"] false false 1).Addresses) := by
  decide

/-- C2, amended: `AppendEmail v` returns `true` whether or not `v` was already
present; `v` is appended at the end exactly when it was not present, and
nothing else of the getter changes. -/
theorem AppendEmail_always_true (g : EmailGetter) (v : String) :
    (g.AppendEmail v).1 = true
    ∧ (g.AppendEmail v).2.Addresses = (if v ∈ g.Addresses then g.Addresses else g.Addresses ++ [v])
    ∧ (g.AppendEmail v).2.RateLimit = g.RateLimit
    ∧ (g.AppendEmail v).2.OnlyUsers = g.OnlyUsers
    ∧ (g.AppendEmail v).2.PageNumber = g.PageNumber := by
  refine ⟨AppendEmail_fst g v, AppendEmail_addresses g v, AppendEmail_rateLimit g v, ?_, ?_⟩
  · unfold EmailGetter.AppendEmail; split <;> rfl
  · unfold EmailGetter.AppendEmail; split <;> rfl

theorem apiUrl_ne_profileUrl (u u' : String) : apiUrl u ≠ profileUrl u' := by
  intro h
  have := congrArg (fun s : String => s.data[8]?) h
  simp [apiUrl, profileUrl, String.data_append] at this

theorem apiUrl_ne_commitsUrl (u name : String) : apiUrl u ≠ commitsUrl name := by
  intro h
  have := congrArg (fun s : String => s.data[23]?) h
  simp [apiUrl, commitsUrl, String.data_append] at this

theorem apiUrl_ne_reposUrl (u : String) : apiUrl u ≠ reposUrl u := by
  intro h
  have := congrArg String.length h
  simp [apiUrl, reposUrl, String.length_append] at this
  revert this
  decide

/-! ## The API strategy -/

theorem AppendEmail_snd (g : EmailGetter) (v : String) :
    (g.AppendEmail v).2 =
      { g with Addresses := if v ∈ g.Addresses then g.Addresses else g.Addresses ++ [v] } := by
  unfold EmailGetter.AppendEmail
  rw [isAlreadyAdded_eq]
  by_cases h : v ∈ g.Addresses <;> simp [h]

theorem matchHere_capture_ne_nil (p : Pattern) (s cap : List Char) (n : Nat)
    (h : matchHere p s = some (cap, n)) : cap ≠ [] := by
  unfold matchHere at h
  split at h
  · dsimp only at h
    split at h
    · rename_i hc
      simp only [Option.some.injEq, Prod.mk.injEq] at h
      rw [← h.1]
      intro hnil
      simp [hnil] at hc
    · simp at h
  · simp at h

theorem findFirst_capture_ne_nil (p : Pattern) (s cap : List Char)
    (h : findFirst p s = some cap) : cap ≠ [] := by
  induction s with
  | nil => simp [findFirst] at h
  | cons c t ih =>
    unfold findFirst at h
    split at h
    · rename_i cap' n hm
      simp only [Option.some.injEq] at h
      rw [← h]
      exact matchHere_capture_ne_nil p (c :: t) cap' n hm
    · exact ih h

theorem FindStringSubmatch_ne_empty (p : Pattern) (s c : String)
    (h : FindStringSubmatch p s = some c) : c ≠ "" := by
  unfold FindStringSubmatch at h
  cases hf : findFirst p s.data with
  | none => simp [hf] at h
  | some cap =>
    simp [hf] at h
    rw [← h]
    intro he
    have := congrArg String.data he
    exact findFirst_capture_ne_nil p s.data cap hf this

/-- C3, as stated, fails: with the flag clear and enumeration mode off, the
user API answers `{"email": "a@x.com"}` for `u`, without the rate-limit text
and carrying the e-mail `a@x.com`, and the profile page carries the mailto
link of the different e-mail `b@x.com`.  The expression for the e-mail field
asks for a comma after the closing quote and captures nothing, so the chain
goes on: the profile page is requested and `b@x.com` is recorded, `a@x.com`
is not. -/
theorem RetrieveEmail_last_field_falls_through :
    initial.getter.RateLimit = false ∧ initial.getter.OnlyUsers = false
    ∧ lastFieldNetwork initial.requests (apiUrl "u")
        = some "\x7b\"email\": \"a@x.com\"\x7d"
    ∧ Contains "\x7b\"email\": \"a@x.com\"\x7d" "rate limit exceeded" = false
    ∧ FindStringSubmatch emailPattern "\x7b\"email\": \"a@x.com\"\x7d" = none
    ∧ lastFieldNetwork (initial.requests ++ [apiUrl "u"]) (profileUrl "u")
        = some "<a href=\"mailto:b%40x.com\">mail</a>"
    ∧ FindStringSubmatch mailtoPattern "<a href=\"mailto:b%40x.com\">mail</a>"
        = some "b%40x.com"
    ∧ QueryUnescape (Replace (Replace "b%40x.com" ";" "") "&#x" "%") = some "b@x.com"
    ∧ (RetrieveEmail lastFieldNetwork "u" initial).completed = true
    ∧ (RetrieveEmail lastFieldNetwork "u" initial).proc.getter.Addresses = ["b@x.com"]
    ∧ "a@x.com" ∉ (RetrieveEmail lastFieldNetwork "u" initial).proc.getter.Addresses
    ∧ (RetrieveEmail lastFieldNetwork "u" initial).proc.requests
        = ["https://api.github.com/users/u", "https://github.com/u"]
    ∧ profileUrl "u" ∈ (RetrieveEmail lastFieldNetwork "u" initial).proc.requests := by
  decide

/-- C3, amended: with the rate-limit flag clear and enumeration mode off, when
the response of the user API does not contain the rate-limit text and the
expression `"email": "([^"]+)",` (the e-mail field followed by a comma)
captures an e-mail `e` in it, and the profile page carries a different
mailto-encoded e-mail `mail`, `RetrieveEmail` returns after the API strategy:
it records `e`, it does not record `mail`, and its only request is the one to
the user API, which is neither a profile page nor a repos or commits
endpoint. -/
theorem RetrieveEmail_api_short_circuits (net : Network) (username body e : String)
    (page c mail : String) (p : Process)
    (hclear : p.getter.RateLimit = false) (hmode : p.getter.OnlyUsers = false)
    (hresp : net p.requests (apiUrl username) = some body)
    (hbody : Contains body "rate limit exceeded" = false)
    (hemail : FindStringSubmatch emailPattern body = some e)
    (_hpage : net (p.requests ++ [apiUrl username]) (profileUrl username) = some page)
    (_hmailto : FindStringSubmatch mailtoPattern page = some c)
    (_hdecode : QueryUnescape (Replace (Replace c ";" "") "&#x" "%") = some mail)
    (hne : mail ≠ e) :
    RetrieveEmail net username p =
        Outcome.ok ()
          ⟨{ p.getter with
              Addresses := if e ∈ p.getter.Addresses then p.getter.Addresses
                           else p.getter.Addresses ++ [e] },
           p.requests ++ [apiUrl username], p.stdout⟩
    ∧ e ∈ (RetrieveEmail net username p).proc.getter.Addresses
    ∧ (mail ∈ (RetrieveEmail net username p).proc.getter.Addresses ↔ mail ∈ p.getter.Addresses)
    ∧ (RetrieveEmail net username p).proc.requests = p.requests ++ [apiUrl username]
    ∧ (∀ u : String, apiUrl username ≠ profileUrl u)
    ∧ apiUrl username ≠ reposUrl username
    ∧ (∀ name : String, apiUrl username ≠ commitsUrl name) := by
  have hne' : e ≠ "" := FindStringSubmatch_ne_empty emailPattern body e hemail
  have hrun : RetrieveEmail net username p =
        Outcome.ok ()
          ⟨{ p.getter with
              Addresses := if e ∈ p.getter.Addresses then p.getter.Addresses
                           else p.getter.Addresses ++ [e] },
           p.requests ++ [apiUrl username], p.stdout⟩ := by
    simp [RetrieveEmail, ExtractFromAPI, Request, AppendEmail, hclear, hmode, hresp, hbody,
      hemail, hne', AppendEmail_fst, AppendEmail_snd]
  refine ⟨hrun, ?_, ?_, ?_, fun u => apiUrl_ne_profileUrl username u,
    apiUrl_ne_reposUrl username, fun name => apiUrl_ne_commitsUrl username name⟩
  · rw [hrun]
    by_cases h : e ∈ p.getter.Addresses <;> simp [Outcome.proc, h]
  · rw [hrun]
    by_cases h : e ∈ p.getter.Addresses <;> simp [Outcome.proc, h, hne]
  · rw [hrun]; rfl

/-! ## The rate-limit flag, and the expansion of a listing -/

theorem ExtractFromAPI_limited (net : Network) (u : String) (p : Process)
    (h : p.getter.RateLimit = true) : ExtractFromAPI net u p = Outcome.ok false p := by
  simp [ExtractFromAPI, h]

theorem ExtractFromActivity_limited (net : Network) (u : String) (p : Process)
    (h : p.getter.RateLimit = true) : ExtractFromActivity net u p = Outcome.ok false p := by
  simp [ExtractFromActivity, h]

theorem AppendEmail_proc_rateLimit (v : String) (p : Process) :
    (AppendEmail v p).proc.getter.RateLimit = p.getter.RateLimit := by
  simp [AppendEmail, Outcome.proc, AppendEmail_rateLimit]

theorem ExtractFromProfile_rateLimit (net : Network) (u : String) (p : Process) :
    (ExtractFromProfile net u p).proc.getter.RateLimit = p.getter.RateLimit := by
  unfold ExtractFromProfile Request
  cases net p.requests (profileUrl u) with
  | none => rfl
  | some content =>
    dsimp only
    cases FindStringSubmatch mailtoPattern content with
    | none => rfl
    | some data1 =>
      dsimp only
      split
      · split
        · exact AppendEmail_proc_rateLimit _ _
        · rfl
      · rfl

theorem FriendEmails_rateLimit (net : Network) (u g : String) (p : Process) :
    (FriendEmails net u g p).proc.getter.RateLimit = p.getter.RateLimit := by
  unfold FriendEmails Request
  cases net p.requests (listingUrl u g p.getter.PageNumber) <;> rfl

theorem RetrieveEmail_limited (net : Network) (u : String) (p : Process)
    (h : p.getter.RateLimit = true) :
    (RetrieveEmail net u p).proc.getter.RateLimit = true := by
  unfold RetrieveEmail
  split
  · exact h
  · rw [ExtractFromAPI_limited net u p h]
    dsimp only
    have hp := ExtractFromProfile_rateLimit net u p
    cases hq : ExtractFromProfile net u p with
    | panic q => rw [hq] at hp; simpa [Outcome.proc, h] using hp
    | ok found q =>
      rw [hq] at hp
      have hq' : q.getter.RateLimit = true := by simpa [Outcome.proc, h] using hp
      cases found with
      | true => simpa [Outcome.proc] using hq'
      | false =>
        simp only [if_true]
        rw [ExtractFromActivity_limited net u q hq']
        exact hq'

theorem Op_run_limited (net : Network) (op : Op) (p : Process)
    (h : p.getter.RateLimit = true) : (op.run net p).proc.getter.RateLimit = true := by
  cases op with
  | appendEmail email =>
    show (AppendEmail email p).proc.getter.RateLimit = true
    rw [AppendEmail_proc_rateLimit]; exact h
  | extractFromAPI u => simp [Op.run, ExtractFromAPI_limited net u p h, Outcome.proc, h]
  | extractFromProfile u =>
    have hp := ExtractFromProfile_rateLimit net u p
    simp only [Op.run]
    cases hq : ExtractFromProfile net u p <;> rw [hq] at hp <;>
      simpa [Outcome.proc, h] using hp
  | extractFromActivity u =>
    simp [Op.run, ExtractFromActivity_limited net u p h, Outcome.proc, h]
  | retrieveEmail u => exact RetrieveEmail_limited net u p h
  | friendEmails u g =>
    have hp := FriendEmails_rateLimit net u g p
    simp only [Op.run]
    cases hq : FriendEmails net u g p <;> rw [hq] at hp <;>
      simpa [Outcome.proc, h] using hp
  | printEmails => simpa [Op.run, Outcome.proc, PrintEmails] using h

theorem runOps_limited (net : Network) (ops : List Op) (p : Process)
    (h : p.getter.RateLimit = true) : (runOps net ops p).proc.getter.RateLimit = true := by
  induction ops generalizing p with
  | nil => simpa [runOps, Outcome.proc] using h
  | cons op rest ih =>
    have hop := Op_run_limited net op p h
    unfold runOps
    cases hq : op.run net p with
    | panic q => rw [hq] at hop; simpa [Outcome.proc] using hop
    | ok v q =>
      rw [hq] at hop
      exact ih q (by simpa [Outcome.proc] using hop)

/-- C4: once a call of `ExtractFromAPI` has seen a response that contains
"rate limit exceeded", the `RateLimit` flag is set, it is still set after any
sequence of getter operations, and in every such later state `ExtractFromAPI`
and `ExtractFromActivity` return false for any username without a request and
without a change of `Addresses` (the state is returned as it was). -/
theorem rate_limit_is_sticky (net : Network) (username body : String) (p : Process)
    (hclear : p.getter.RateLimit = false)
    (hresp : net p.requests (apiUrl username) = some body)
    (hbody : Contains body "rate limit exceeded" = true)
    (ops : List Op) (u : String) :
    ExtractFromAPI net username p =
        Outcome.ok false
          ⟨{ p.getter with RateLimit := true }, p.requests ++ [apiUrl username], p.stdout⟩
    ∧ (runOps net ops (ExtractFromAPI net username p).proc).proc.getter.RateLimit = true
    ∧ ExtractFromAPI net u (runOps net ops (ExtractFromAPI net username p).proc).proc =
        Outcome.ok false (runOps net ops (ExtractFromAPI net username p).proc).proc
    ∧ ExtractFromActivity net u (runOps net ops (ExtractFromAPI net username p).proc).proc =
        Outcome.ok false (runOps net ops (ExtractFromAPI net username p).proc).proc := by
  have hfirst : ExtractFromAPI net username p =
        Outcome.ok false
          ⟨{ p.getter with RateLimit := true }, p.requests ++ [apiUrl username], p.stdout⟩ := by
    simp [ExtractFromAPI, Request, hclear, hresp, hbody]
  have hset : (ExtractFromAPI net username p).proc.getter.RateLimit = true := by
    rw [hfirst]; rfl
  have hlater := runOps_limited net ops _ hset
  exact ⟨hfirst, hlater, ExtractFromAPI_limited net u _ hlater,
    ExtractFromActivity_limited net u _ hlater⟩

theorem spawnLoop_eq (username : String) (spawned captures : List String) :
    spawnLoop username spawned captures =
      spawned ++ captures.filter (fun c => decide (c ≠ username)) := by
  induction captures generalizing spawned with
  | nil => simp [spawnLoop]
  | cons c rest ih =>
    unfold spawnLoop
    by_cases h : c = username
    · simp [h, ih]
    · simp [h, ih]

theorem FriendEmails_eq (net : Network) (username group content : String) (p : Process)
    (hresp : net p.requests (listingUrl username group p.getter.PageNumber) = some content) :
    FriendEmails net username group p =
      Outcome.ok
        ((FindAllStringSubmatch imgAltPattern content).filter (fun c => decide (c ≠ username)))
        ⟨p.getter, p.requests ++ [listingUrl username group p.getter.PageNumber], p.stdout⟩ := by
  simp [FriendEmails, Request, hresp, spawnLoop_eq]

/-- C5: `FriendEmails` requests the one listing page and starts a
`RetrieveEmail` task for exactly the captures of the page that differ from the
root username, in the order of the page and once per occurrence; the root
username is never among them, and a page without captures starts no task. -/
theorem FriendEmails_spawns_filtered_captures (net : Network) (username group content : String)
    (p : Process)
    (hresp : net p.requests (listingUrl username group p.getter.PageNumber) = some content) :
    FriendEmails net username group p =
        Outcome.ok
          ((FindAllStringSubmatch imgAltPattern content).filter (fun c => decide (c ≠ username)))
          ⟨p.getter, p.requests ++ [listingUrl username group p.getter.PageNumber], p.stdout⟩
    ∧ username ∉
        (FindAllStringSubmatch imgAltPattern content).filter (fun c => decide (c ≠ username))
    ∧ (∀ c : String,
        ((FindAllStringSubmatch imgAltPattern content).filter
            (fun c => decide (c ≠ username))).count c =
          if c = username then 0 else (FindAllStringSubmatch imgAltPattern content).count c)
    ∧ (FindAllStringSubmatch imgAltPattern content = [] →
        FriendEmails net username group p =
          Outcome.ok []
            ⟨p.getter, p.requests ++ [listingUrl username group p.getter.PageNumber],
              p.stdout⟩) := by
  have hrun : FriendEmails net username group p =
        Outcome.ok
          ((FindAllStringSubmatch imgAltPattern content).filter (fun c => decide (c ≠ username)))
          ⟨p.getter, p.requests ++ [listingUrl username group p.getter.PageNumber],
            p.stdout⟩ :=
    FriendEmails_eq net username group content p hresp
  refine ⟨hrun, ?_, ?_, ?_⟩
  · simp [List.mem_filter]
  · intro c
    by_cases h : c = username
    · rw [if_pos h, List.count_eq_zero]
      simp [List.mem_filter, h]
    · rw [if_neg h]
      exact List.count_filter (by simpa using h)
  · intro hnone
    rw [hrun, hnone]
    rfl

/-! ## The activity strategy -/

theorem recordAll_cons (v : String) (vs : List String) (g : EmailGetter) :
    recordAll (v :: vs) g = recordAll vs (g.AppendEmail v).2 := by
  simp [recordAll]

theorem recordAll_eq (vs : List String) (g : EmailGetter) :
    recordAll vs g = { g with Addresses := (recordAll vs g).Addresses } := by
  induction vs generalizing g with
  | nil => rfl
  | cons v rest ih =>
    rw [recordAll_cons, ih (g.AppendEmail v).2, AppendEmail_snd]

theorem appendAll_eq (ms : List String) (p : Process) :
    appendAll ms p = { p with getter := recordAll ms p.getter } := by
  induction ms generalizing p with
  | nil => rfl
  | cons m rest ih =>
    unfold appendAll
    rw [ih, recordAll_cons]
    rfl

/-- C10: with the rate-limit flag clear, when the repos response yields a
repository full name, `ExtractFromActivity` fetches that repository's commit
list and records every captured author e-mail: `Addresses` becomes the old
list followed by the captured e-mails that were not in it, in first-seen order
and without repeats, and the result is true exactly when at least one e-mail
was captured; when no full name is found the result is false, no commit list
is fetched and `Addresses` is unchanged. -/
theorem ExtractFromActivity_records_commit_emails (net : Network) (username repos : String)
    (p : Process) (hclear : p.getter.RateLimit = false)
    (hrepos : net p.requests (reposUrl username) = some repos) :
    (∀ name commits : String,
        FindStringSubmatch fullNamePattern repos = some name →
        net (p.requests ++ [reposUrl username]) (commitsUrl name) = some commits →
        ExtractFromActivity net username p =
            Outcome.ok (decide (FindAllStringSubmatch emailPattern commits ≠ []))
              ⟨{ p.getter with
                  Addresses := p.getter.Addresses ++
                    removeLaterRepeats ((FindAllStringSubmatch emailPattern commits).filter
                      (fun e => decide (e ∉ p.getter.Addresses))) },
               p.requests ++ [reposUrl username, commitsUrl name], p.stdout⟩
        ∧ (∀ e ∈ FindAllStringSubmatch emailPattern commits,
            e ∈ (ExtractFromActivity net username p).proc.getter.Addresses)
        ∧ (p.getter.Addresses.Nodup →
            (ExtractFromActivity net username p).proc.getter.Addresses.Nodup))
    ∧ (FindStringSubmatch fullNamePattern repos = none →
        ExtractFromActivity net username p =
          Outcome.ok false ⟨p.getter, p.requests ++ [reposUrl username], p.stdout⟩) := by
  constructor
  · intro name commits hname hcommits
    have hne : name ≠ "" := FindStringSubmatch_ne_empty fullNamePattern repos name hname
    have hrun : ExtractFromActivity net username p =
        Outcome.ok (decide (FindAllStringSubmatch emailPattern commits ≠ []))
          ⟨{ p.getter with
              Addresses := p.getter.Addresses ++
                removeLaterRepeats ((FindAllStringSubmatch emailPattern commits).filter
                  (fun e => decide (e ∉ p.getter.Addresses))) },
           p.requests ++ [reposUrl username, commitsUrl name], p.stdout⟩ := by
      have hrec := recordAll_eq (FindAllStringSubmatch emailPattern commits) p.getter
      rw [recordAll_addresses] at hrec
      simp only [ExtractFromActivity, Request, hclear, hrepos, hname, hcommits, appendAll_eq]
      simp [hne, hrec, List.length_pos, hclear]
    refine ⟨hrun, ?_, ?_⟩
    · intro e he
      rw [hrun]
      simp only [Outcome.proc, List.mem_append, mem_removeLaterRepeats, List.mem_filter]
      by_cases h : e ∈ p.getter.Addresses
      · exact Or.inl h
      · exact Or.inr ⟨he, by simpa using h⟩
    · intro hnd
      rw [hrun]
      simp only [Outcome.proc]
      rw [List.nodup_append]
      refine ⟨hnd, nodup_removeLaterRepeats _, ?_⟩
      intro a ha hb
      rw [mem_removeLaterRepeats, List.mem_filter] at hb
      have := hb.2
      simp at this
      exact this ha
  · intro hnone
    simp [ExtractFromActivity, Request, hclear, hrepos, hnone]

/-! ## Root-only runs -/

theorem exec_idle (net : Network) (root : String) (cs : List Nat) (p : Process) :
    exec net root cs ⟨[], none⟩ p = Outcome.ok () p := by
  induction cs with
  | nil => rfl
  | cons c cs ih =>
    cases c with
    | zero => simpa [exec, step, defaultStep] using ih
    | succ i => simpa [exec, step, defaultStep] using ih

theorem exec_single (net : Network) (root u : String) (cs : List Nat) (p : Process) :
    exec net root cs ⟨[u], none⟩ p = RetrieveEmail net u p := by
  cases cs with
  | nil =>
    simp only [exec, drain, runAll]
    cases RetrieveEmail net u p <;> rfl
  | cons c cs =>
    cases c with
    | zero =>
      simp only [exec, step, defaultStep]
      cases RetrieveEmail net u p with
      | panic q => rfl
      | ok v q => exact exec_idle net root cs q
    | succ i =>
      cases i with
      | zero =>
        simp only [exec, step, List.getElem?_cons_zero, List.take_zero, List.nil_append]
        cases RetrieveEmail net u p with
        | panic q => rfl
        | ok v q => exact exec_idle net root cs q
      | succ j =>
        simp only [exec, step, List.getElem?_cons_succ, List.getElem?_nil, defaultStep]
        cases RetrieveEmail net u p with
        | panic q => rfl
        | ok v q => exact exec_idle net root cs q

/-- C6, as stated, fails: with the user API answering exactly
`{"email": "a@x.com"}` and every other endpoint answering with an empty body,
the root-only run completes and prints nothing, because the expression for the
e-mail field asks for a comma after the closing quote. -/
theorem main_scenario_A_prints_nothing :
    scenarioANetwork [] (apiUrl "u") = some "\x7b\"email\": \"a@x.com\"\x7d"
    ∧ (main scenarioANetwork ⟨"u", false, false, false, 1⟩ []).completed = true
    ∧ (main scenarioANetwork ⟨"u", false, false, false, 1⟩ []).proc.stdout = []
    ∧ (main scenarioANetwork ⟨"u", false, false, false, 1⟩ []).proc.stdout ≠ ["a@x.com"]
    ∧ FindStringSubmatch emailPattern "\x7b\"email\": \"a@x.com\"\x7d" = none := by
  decide

/-- C6, amended: in a root-only run (followers, following and noemails all
false) with a username given, when the body answered by the user API does not
contain the rate-limit text and the expression `"email": "([^"]+)",` (the
e-mail field followed by a comma) captures `a@x.com` in it, as in the body
`{"email": "a@x.com",}`, the run completes under every schedule with the
single request to the user API and prints exactly the line `a@x.com`,
whatever the other endpoints return. -/
theorem main_root_only_prints_api_email (net : Network) (username body : String) (page : Int)
    (schedule : List Nat) (huser : username ≠ "")
    (hresp : net [] (apiUrl username) = some body)
    (hbody : Contains body "rate limit exceeded" = false)
    (hemail : FindStringSubmatch emailPattern body = some "a@x.com") :
    main net ⟨username, false, false, false, page⟩ schedule =
      Outcome.ok () ⟨⟨["a@x.com"], false, false, page⟩, [apiUrl username], ["a@x.com"]⟩ := by
  simp [main, exec_single, huser, initial, RetrieveEmail, ExtractFromAPI, Request, hresp, hbody,
    hemail, AppendEmail, AppendEmail_fst, AppendEmail_snd, PrintEmails]

/-! ## Requests and output of a lookup -/

theorem appendAll_requests (ms : List String) (p : Process) :
    (appendAll ms p).requests = p.requests := by
  rw [appendAll_eq]

theorem ExtractFromAPI_requests (net : Network) (u : String) (p : Process)
    (hclear : p.getter.RateLimit = false) :
    (ExtractFromAPI net u p).proc.requests = p.requests ++ [apiUrl u] := by
  unfold ExtractFromAPI Request
  simp only [hclear, Bool.false_eq_true, if_false]
  cases net p.requests (apiUrl u) with
  | none => rfl
  | some output =>
    dsimp only
    repeat' split
    all_goals rfl

theorem ExtractFromProfile_requests (net : Network) (u : String) (p : Process) :
    (ExtractFromProfile net u p).proc.requests = p.requests ++ [profileUrl u] := by
  unfold ExtractFromProfile Request
  cases net p.requests (profileUrl u) with
  | none => rfl
  | some content =>
    dsimp only
    repeat' split
    all_goals rfl

theorem ExtractFromActivity_requests (net : Network) (u : String) (p : Process) :
    p.requests <+: (ExtractFromActivity net u p).proc.requests := by
  unfold ExtractFromActivity Request
  split
  · exact List.prefix_refl _
  · cases net p.requests (reposUrl u) with
    | none => exact List.prefix_append _ _
    | some content =>
      dsimp only
      cases FindStringSubmatch fullNamePattern content with
      | none => exact List.prefix_append _ _
      | some data1 =>
        dsimp only
        split
        · cases net (p.requests ++ [reposUrl u]) (commitsUrl data1) with
          | none =>
            exact (List.prefix_append _ _).trans (List.prefix_append _ _)
          | some commits =>
            simp only [Outcome.proc, appendAll_requests]
            exact (List.prefix_append _ _).trans (List.prefix_append _ _)
        · exact List.prefix_append _ _

theorem RetrieveEmail_requests (net : Network) (u : String) (p : Process)
    (hclear : p.getter.RateLimit = false) (hmode : p.getter.OnlyUsers = false) :
    (p.requests ++ [apiUrl u]) <+: (RetrieveEmail net u p).proc.requests := by
  have hapi := ExtractFromAPI_requests net u p hclear
  cases hq : ExtractFromAPI net u p with
  | panic q =>
    rw [hq] at hapi
    simp only [Outcome.proc] at hapi
    simp [RetrieveEmail, hmode, hq, Outcome.proc, hapi]
  | ok found q =>
    rw [hq] at hapi
    simp only [Outcome.proc] at hapi
    cases found with
    | true => simp [RetrieveEmail, hmode, hq, Outcome.proc, hapi]
    | false =>
      have hprof := ExtractFromProfile_requests net u q
      cases hr : ExtractFromProfile net u q with
      | panic r =>
        rw [hr] at hprof
        simp only [Outcome.proc] at hprof
        simp [RetrieveEmail, hmode, hq, hr, Outcome.proc, hapi, hprof]
      | ok found' r =>
        rw [hr] at hprof
        simp only [Outcome.proc] at hprof
        cases found' with
        | true => simp [RetrieveEmail, hmode, hq, hr, Outcome.proc, hapi, hprof]
        | false =>
          have hact := ExtractFromActivity_requests net u r
          have hpr : (p.requests ++ [apiUrl u]) <+: r.requests := by
            rw [hprof, hapi]; exact List.prefix_append _ _
          cases ht : ExtractFromActivity net u r with
          | panic t =>
            rw [ht] at hact
            simp only [RetrieveEmail, hmode, hq, hr, ht, Outcome.proc, Bool.false_eq_true,
              if_false, if_true]
            exact hpr.trans hact
          | ok v t =>
            rw [ht] at hact
            simp only [RetrieveEmail, hmode, hq, hr, ht, Outcome.proc, Bool.false_eq_true,
              if_false, if_true]
            exact hpr.trans hact

theorem appendAll_stdout (ms : List String) (p : Process) :
    (appendAll ms p).stdout = p.stdout := by
  rw [appendAll_eq]

theorem ExtractFromAPI_stdout (net : Network) (u : String) (p : Process) :
    (ExtractFromAPI net u p).proc.stdout = p.stdout := by
  unfold ExtractFromAPI Request
  split
  · rfl
  · cases net p.requests (apiUrl u) with
    | none => rfl
    | some output =>
      dsimp only
      repeat' split
      all_goals rfl

theorem ExtractFromProfile_stdout (net : Network) (u : String) (p : Process) :
    (ExtractFromProfile net u p).proc.stdout = p.stdout := by
  unfold ExtractFromProfile Request
  cases net p.requests (profileUrl u) with
  | none => rfl
  | some content =>
    dsimp only
    repeat' split
    all_goals rfl

theorem ExtractFromActivity_stdout (net : Network) (u : String) (p : Process) :
    (ExtractFromActivity net u p).proc.stdout = p.stdout := by
  unfold ExtractFromActivity Request
  split
  · rfl
  · cases net p.requests (reposUrl u) with
    | none => rfl
    | some content =>
      dsimp only
      cases FindStringSubmatch fullNamePattern content with
      | none => rfl
      | some data1 =>
        dsimp only
        split
        · cases net (p.requests ++ [reposUrl u]) (commitsUrl data1) with
          | none => rfl
          | some commits => simp only [Outcome.proc, appendAll_stdout]
        · rfl

theorem RetrieveEmail_stdout (net : Network) (u : String) (p : Process)
    (hmode : p.getter.OnlyUsers = false) :
    (RetrieveEmail net u p).proc.stdout = p.stdout := by
  have hapi := ExtractFromAPI_stdout net u p
  cases hq : ExtractFromAPI net u p with
  | panic q =>
    rw [hq] at hapi
    simp only [Outcome.proc] at hapi
    simp [RetrieveEmail, hmode, hq, Outcome.proc, hapi]
  | ok found q =>
    rw [hq] at hapi
    simp only [Outcome.proc] at hapi
    cases found with
    | true => simp [RetrieveEmail, hmode, hq, Outcome.proc, hapi]
    | false =>
      have hprof := ExtractFromProfile_stdout net u q
      cases hr : ExtractFromProfile net u q with
      | panic r =>
        rw [hr] at hprof
        simp only [Outcome.proc] at hprof
        simp [RetrieveEmail, hmode, hq, hr, Outcome.proc, hapi, hprof]
      | ok found' r =>
        rw [hr] at hprof
        simp only [Outcome.proc] at hprof
        cases found' with
        | true => simp [RetrieveEmail, hmode, hq, hr, Outcome.proc, hapi, hprof]
        | false =>
          have hact := ExtractFromActivity_stdout net u r
          cases ht : ExtractFromActivity net u r with
          | panic t =>
            rw [ht] at hact
            simp only [Outcome.proc] at hact
            simp [RetrieveEmail, hmode, hq, hr, ht, Outcome.proc, hapi, hprof, hact]
          | ok v t =>
            rw [ht] at hact
            simp only [Outcome.proc] at hact
            simp [RetrieveEmail, hmode, hq, hr, ht, Outcome.proc, hapi, hprof, hact]

/-- C8, what the code does: with the username flag missing and the other flags
at their defaults, `main` prints the usage lines and goes on; under every
network and every schedule its first request is the one to the user API of
the empty username. -/
theorem main_missing_username_still_requests (net : Network) (page : Int)
    (schedule : List Nat) :
    [apiUrl ""] <+: (main net ⟨"", false, false, false, page⟩ schedule).proc.requests
    ∧ apiUrl "" = "https://api.github.com/users/"
    ∧ (main net ⟨"", false, false, false, page⟩ schedule).proc.requests ≠ []
    ∧ usageLines <+: (main net ⟨"", false, false, false, page⟩ schedule).proc.stdout := by
  have hpre : [apiUrl ""] <+:
      (main net ⟨"", false, false, false, page⟩ schedule).proc.requests := by
    have h := RetrieveEmail_requests net ""
      ⟨⟨[], false, false, page⟩, [], usageLines⟩ rfl rfl
    cases hq : RetrieveEmail net "" ⟨⟨[], false, false, page⟩, [], usageLines⟩ with
    | panic q =>
      rw [hq] at h
      simpa [main, exec_single, initial, hq, Outcome.proc] using h
    | ok v q =>
      rw [hq] at h
      simpa [main, exec_single, initial, hq, Outcome.proc, PrintEmails] using h
  refine ⟨hpre, by decide, ?_, ?_⟩
  · intro hnil
    rw [hnil] at hpre
    simp at hpre
  · have h := RetrieveEmail_stdout net ""
      ⟨⟨[], false, false, page⟩, [], usageLines⟩ rfl
    cases hq : RetrieveEmail net "" ⟨⟨[], false, false, page⟩, [], usageLines⟩ with
    | panic q =>
      rw [hq] at h
      simp only [Outcome.proc] at h
      simp [main, exec_single, initial, hq, Outcome.proc, h]
    | ok v q =>
      rw [hq] at h
      simp only [Outcome.proc] at h
      simp [main, exec_single, initial, hq, Outcome.proc, PrintEmails, h]

/-! ## Enumeration mode under a schedule -/

theorem RetrieveEmail_enum (net : Network) (u : String) (p : Process)
    (hmode : p.getter.OnlyUsers = true) :
    RetrieveEmail net u p = Outcome.ok () ⟨p.getter, p.requests, p.stdout ++ [u]⟩ := by
  simp [RetrieveEmail, hmode]

theorem runAll_enum (net : Network) (l : List String) (p : Process)
    (hmode : p.getter.OnlyUsers = true) :
    runAll net l p = Outcome.ok () ⟨p.getter, p.requests, p.stdout ++ l⟩ := by
  induction l generalizing p with
  | nil => simp [runAll]
  | cons u rest ih =>
    unfold runAll
    rw [RetrieveEmail_enum net u p hmode]
    dsimp only
    rw [ih ⟨p.getter, p.requests, p.stdout ++ [u]⟩ hmode]
    simp

theorem perm_pick (l : List String) (i : Nat) (u : String) (h : l[i]? = some u) :
    (u :: (l.take i ++ l.drop (i + 1))).Perm l := by
  obtain ⟨hlt, hu⟩ := List.getElem?_eq_some_iff.mp h
  have hl : l.take i ++ u :: l.drop (i + 1) = l := by
    rw [← hu, ← List.drop_eq_getElem_cons hlt, List.take_append_drop]
  calc (u :: (l.take i ++ l.drop (i + 1))).Perm (l.take i ++ u :: l.drop (i + 1)) :=
        List.perm_middle.symm
    _ = l := hl

theorem exec_enum_expanded (net : Network) (root : String) (cs : List Nat)
    (pending : List String) (p : Process) (hmode : p.getter.OnlyUsers = true) :
    ∃ out, exec net root cs ⟨pending, none⟩ p = Outcome.ok () ⟨p.getter, p.requests, out⟩
      ∧ out.Perm (p.stdout ++ pending) := by
  induction cs generalizing pending p with
  | nil =>
    refine ⟨p.stdout ++ pending, ?_, List.Perm.refl _⟩
    simp [exec, drain, runAll_enum net pending p hmode]
  | cons c cs ih =>
    have hdefault : ∃ out, (match defaultStep net root ⟨pending, none⟩ p with
          | Outcome.panic q => Outcome.panic q
          | Outcome.ok t q => exec net root cs t q)
          = Outcome.ok () ⟨p.getter, p.requests, out⟩ ∧ out.Perm (p.stdout ++ pending) := by
      cases pending with
      | nil =>
        obtain ⟨out, hrun, hperm⟩ := ih [] p hmode
        exact ⟨out, by simpa [defaultStep] using hrun, hperm⟩
      | cons u rest =>
        obtain ⟨out, hrun, hperm⟩ := ih rest ⟨p.getter, p.requests, p.stdout ++ [u]⟩ hmode
        refine ⟨out, ?_, ?_⟩
        · simpa [defaultStep, RetrieveEmail_enum net u p hmode] using hrun
        · simpa using hperm
    cases c with
    | zero => simpa [exec, step] using hdefault
    | succ i =>
      cases hget : pending[i]? with
      | none => simpa [exec, step, hget] using hdefault
      | some u =>
        obtain ⟨out, hrun, hperm⟩ :=
          ih (pending.take i ++ pending.drop (i + 1)) ⟨p.getter, p.requests, p.stdout ++ [u]⟩ hmode
        refine ⟨out, ?_, ?_⟩
        · simpa [exec, step, hget, RetrieveEmail_enum net u p hmode] using hrun
        · refine hperm.trans ?_
          simp only [List.append_assoc, List.singleton_append]
          exact List.Perm.append_left _ (perm_pick pending i u hget)

theorem exec_enum (net : Network) (root group content : String) (cs : List Nat)
    (pending : List String) (p : Process) (hmode : p.getter.OnlyUsers = true)
    (hresp : net p.requests (listingUrl root group p.getter.PageNumber) = some content) :
    ∃ out, exec net root cs ⟨pending, some group⟩ p =
        Outcome.ok () ⟨p.getter, p.requests ++ [listingUrl root group p.getter.PageNumber], out⟩
      ∧ out.Perm (p.stdout ++ pending ++
          (FindAllStringSubmatch imgAltPattern content).filter (fun c => decide (c ≠ root))) := by
  have hfriends := FriendEmails_eq net root group content p hresp
  induction cs generalizing pending p with
  | nil =>
    refine ⟨_, ?_, List.Perm.refl _⟩
    simp only [exec, drain, hfriends]
    rw [runAll_enum net _
      ⟨p.getter, p.requests ++ [listingUrl root group p.getter.PageNumber], p.stdout⟩ hmode]
    simp
  | cons c cs ih =>
    have hdefault : ∃ out, (match defaultStep net root ⟨pending, some group⟩ p with
          | Outcome.panic q => Outcome.panic q
          | Outcome.ok t q => exec net root cs t q)
          = Outcome.ok ()
              ⟨p.getter, p.requests ++ [listingUrl root group p.getter.PageNumber], out⟩
          ∧ out.Perm (p.stdout ++ pending ++
              (FindAllStringSubmatch imgAltPattern content).filter
                (fun c => decide (c ≠ root))) := by
      obtain ⟨out, hrun, hperm⟩ := exec_enum_expanded net root cs
        (pending ++ (FindAllStringSubmatch imgAltPattern content).filter
          (fun c => decide (c ≠ root)))
        ⟨p.getter, p.requests ++ [listingUrl root group p.getter.PageNumber], p.stdout⟩ hmode
      refine ⟨out, ?_, ?_⟩
      · simpa [defaultStep, hfriends] using hrun
      · simpa using hperm
    cases c with
    | zero => simpa [exec, step] using hdefault
    | succ i =>
      cases hget : pending[i]? with
      | none => simpa [exec, step, hget] using hdefault
      | some u =>
        obtain ⟨out, hrun, hperm⟩ :=
          ih (pending.take i ++ pending.drop (i + 1)) ⟨p.getter, p.requests, p.stdout ++ [u]⟩
            hmode hresp
            (FriendEmails_eq net root group content
              ⟨p.getter, p.requests, p.stdout ++ [u]⟩ hresp)
        refine ⟨out, ?_, ?_⟩
        · simpa [exec, step, hget, RetrieveEmail_enum net u p hmode] using hrun
        · refine hperm.trans ?_
          simp only [List.append_assoc, List.singleton_append]
          exact List.Perm.append_left _
            (List.Perm.append_right _ (perm_pick pending i u hget))

/-! ## Runs in enumeration mode, and the profile strategy -/

/-- C7, as stated, fails: in enumeration mode with following set, where the
following page of `r` lists exactly `a`, `b` and `c`, the run prints four
lines, the root username `r` among them, so its output is not a permutation of
the three usernames. -/
theorem main_scenario_B_prints_root :
    FindAllStringSubmatch imgAltPattern
        "<img alt=\"@a\" /><img alt=\"@b\" /><img alt=\"@c\" />" = ["a", "b", "c"]
    ∧ (main scenarioBNetwork ⟨"r", false, true, true, 1⟩ []).completed = true
    ∧ (main scenarioBNetwork ⟨"r", false, true, true, 1⟩ []).proc.stdout = ["r", "a", "b", "c"]
    ∧ ¬ (main scenarioBNetwork ⟨"r", false, true, true, 1⟩ []).proc.stdout.Perm
          ["a", "b", "c"] := by
  refine ⟨by decide, by decide, by decide, ?_⟩
  intro h
  have hlen := h.length_eq
  revert hlen
  decide

/-- C7, amended: in enumeration mode with following set and a username given,
when the following page captures three distinct usernames, none equal to the
root username, the run completes under every schedule with the single request
for the following page, and the lines it prints are a permutation of the root
username and those three usernames, each exactly once and nothing else. -/
theorem main_enumeration_following (net : Network) (root a b c content : String)
    (page : Int) (followers : Bool) (schedule : List Nat) (hroot : root ≠ "")
    (hresp : net [] (listingUrl root "following" page) = some content)
    (hcaps : FindAllStringSubmatch imgAltPattern content = [a, b, c])
    (hab : a ≠ b) (hac : a ≠ c) (hbc : b ≠ c)
    (har : a ≠ root) (hbr : b ≠ root) (hcr : c ≠ root) :
    ∃ out, main net ⟨root, followers, true, true, page⟩ schedule =
        Outcome.ok () ⟨⟨[], false, true, page⟩, [listingUrl root "following" page], out⟩
      ∧ out.Perm [root, a, b, c] ∧ out.Nodup := by
  obtain ⟨out, hrun, hperm⟩ := exec_enum net root "following" content schedule [root]
    ⟨⟨[], false, true, page⟩, [], []⟩ rfl hresp
  have hperm' : out.Perm [root, a, b, c] := by
    simpa [hcaps, har, hbr, hcr] using hperm
  refine ⟨out, ?_, hperm', ?_⟩
  · simp only [main, hroot, initial, if_false, if_true]
    rw [hrun]
    simp [PrintEmails]
  · rw [hperm'.nodup_iff]
    simp [hab, hac, hbc, Ne.symm har, Ne.symm hbr, Ne.symm hcr]

/-- C9, what the code does: for the mailto capture `a+b%40x.com`, whose
standard percent-decoding is `a+b@x.com`, `ExtractFromProfile` returns true
and records `a b@x.com`, because `url.QueryUnescape` also turns a plus sign
into a space. -/
theorem ExtractFromProfile_plus_becomes_space :
    FindStringSubmatch mailtoPattern "<a href=\"mailto:a+b%40x.com\">mail</a>"
        = some "a+b%40x.com"
    ∧ Replace (Replace "a+b%40x.com" ";" "") "&#x" "%" = "a+b%40x.com"
    ∧ percentDecode "a+b%40x.com" = some "a+b@x.com"
    ∧ QueryUnescape "a+b%40x.com" = some "a b@x.com"
    ∧ (ExtractFromProfile plusNetwork "u" initial).proc.getter.Addresses = ["a b@x.com"]
    ∧ (ExtractFromProfile plusNetwork "u" initial).completed = true := by
  decide

/-! ## Decoding of the mailto capture -/

theorem unescape_eq_percentDecodeChars (l : List Char) (hplus : '+' ∉ l) :
    unescape l = percentDecodeChars l := by
  induction l using unescape.induct with
  | case1 => rfl
  | case2 a b t hhex ih =>
    have : '+' ∉ t := fun h => hplus (by simp [h])
    simp [unescape, percentDecodeChars, hhex, ih this]
  | case3 a b t hhex =>
    simp [unescape, percentDecodeChars, hhex]
  | case4 t hshape =>
    unfold unescape percentDecodeChars
    simp only [if_true]
  | case5 t hp ih => simp at hplus
  | case6 c t hc hp ih =>
    have : '+' ∉ t := fun h => hplus (List.mem_cons_of_mem c h)
    unfold unescape percentDecodeChars
    simp only [hc, hp, if_false, ih this]

theorem QueryUnescape_eq_percentDecode (s : String) (hplus : '+' ∉ s.data) :
    QueryUnescape s = percentDecode s := by
  simp [QueryUnescape, percentDecode, unescape_eq_percentDecodeChars s.data hplus]

theorem ExtractFromProfile_decoded (net : Network) (username content c : String) (p : Process)
    (hresp : net p.requests (profileUrl username) = some content)
    (hcap : FindStringSubmatch mailtoPattern content = some c) :
    ExtractFromProfile net username p =
      match QueryUnescape (Replace (Replace c ";" "") "&#x" "%") with
      | some out =>
        Outcome.ok true
          ⟨{ p.getter with
              Addresses := if out ∈ p.getter.Addresses then p.getter.Addresses
                           else p.getter.Addresses ++ [out] },
           p.requests ++ [profileUrl username], p.stdout⟩
      | none => Outcome.ok false ⟨p.getter, p.requests ++ [profileUrl username], p.stdout⟩ := by
  have hne : c ≠ "" := FindStringSubmatch_ne_empty mailtoPattern content c hcap
  cases hd : QueryUnescape (Replace (Replace c ";" "") "&#x" "%") with
  | none => simp [ExtractFromProfile, Request, hresp, hcap, hne, hd]
  | some out =>
    simp [ExtractFromProfile, Request, hresp, hcap, hne, hd, AppendEmail, AppendEmail_fst,
      AppendEmail_snd]

theorem ExtractFromProfile_examples :
    Replace (Replace "foo%40example%2ecom&#x2e;org;" ";" "") "&#x" "%"
        = "foo%40example%2ecom%2eorg"
    ∧ QueryUnescape "foo%40example%2ecom%2eorg" = some "foo@example.com.org"
    ∧ (ExtractFromProfile malformedNetwork "u" initial).completed = true
    ∧ (ExtractFromProfile malformedNetwork "u" initial).proc.getter.Addresses = [] := by
  decide

/-! ## Concrete runs -/

/-- Witness of C3: user `u` of the sample network has `a@x.com` in the user
API and `b@x.com` on the profile page; only the first is recorded, with one
request. -/
theorem RetrieveEmail_api_short_circuits_witness :
    RetrieveEmail sampleNetwork "u" initial =
        Outcome.ok () ⟨⟨["a@x.com"], false, false, 0⟩, ["https://api.github.com/users/u"], []⟩
    ∧ ("b@x.com" ∈ (RetrieveEmail sampleNetwork "u" initial).proc.getter.Addresses
        ↔ "b@x.com" ∈ initial.getter.Addresses) :=
  have h := RetrieveEmail_api_short_circuits sampleNetwork "u"
    "\x7b\"login\": \"u\", \"email\": \"a@x.com\", \"bio\": null\x7d" "a@x.com"
    "<a href=\"mailto:b%40x.com\">mail</a>" "b%40x.com" "b@x.com" initial
    rfl rfl (by decide) (by decide) (by decide) (by decide) (by decide) (by decide) (by decide)
  ⟨h.1, h.2.2.1⟩

/-- Witness of C4: on the network whose quota is used up, the flag is set by
the first call and stays set through later operations. -/
theorem rate_limit_is_sticky_witness :
    (runOps limitedNetwork [Op.retrieveEmail "v", Op.extractFromProfile "w", Op.printEmails]
        (ExtractFromAPI limitedNetwork "u" initial).proc).proc.getter.RateLimit = true
    ∧ ExtractFromActivity limitedNetwork "x"
        (runOps limitedNetwork [Op.retrieveEmail "v", Op.extractFromProfile "w", Op.printEmails]
          (ExtractFromAPI limitedNetwork "u" initial).proc).proc =
      Outcome.ok false
        (runOps limitedNetwork [Op.retrieveEmail "v", Op.extractFromProfile "w", Op.printEmails]
          (ExtractFromAPI limitedNetwork "u" initial).proc).proc :=
  have h := rate_limit_is_sticky limitedNetwork "u"
    "\x7b\"message\": \"API rate limit exceeded for 10.0.0.1.\"\x7d" initial
    rfl rfl (by decide)
    [Op.retrieveEmail "v", Op.extractFromProfile "w", Op.printEmails] "x"
  ⟨h.2.1, h.2.2.2⟩

/-- Witness of C5: the followers page of `r` lists `a`, `r` and `a`; tasks are
started for `a` and `a`. -/
theorem FriendEmails_spawns_filtered_captures_witness :
    FriendEmails listingNetwork "r" "followers" initial =
      Outcome.ok ["a", "a"] ⟨initial.getter, ["https://github.com/r/followers"], []⟩ :=
  (FriendEmails_spawns_filtered_captures listingNetwork "r" "followers"
    "<img alt=\"@a\" /><img alt=\"@r\" /><img alt=\"@a\" />" initial (by decide)).1

/-- Witness of C6: with the body `{"email": "a@x.com",}` the root-only run
prints the one line. -/
theorem main_root_only_prints_api_email_witness :
    main scenarioACommaNetwork ⟨"u", false, false, false, 1⟩ [2, 0] =
      Outcome.ok () ⟨⟨["a@x.com"], false, false, 1⟩, ["https://api.github.com/users/u"],
        ["a@x.com"]⟩ :=
  main_root_only_prints_api_email scenarioACommaNetwork "u"
    "\x7b\"email\": \"a@x.com\",\x7d" 1 [2, 0] (by decide) (by decide) (by decide) (by decide)

/-- Witness of C7: the run over the following page of `r`, under a schedule
that lets the task of `b` go first. -/
theorem main_enumeration_following_witness :
    ∃ out, main scenarioBNetwork ⟨"r", false, true, true, 1⟩ [0, 3, 1] =
        Outcome.ok () ⟨⟨[], false, true, 1⟩, ["https://github.com/r/following"], out⟩
      ∧ out.Perm ["r", "a", "b", "c"] ∧ out.Nodup :=
  main_enumeration_following scenarioBNetwork "r" "a" "b" "c"
    "<img alt=\"@a\" /><img alt=\"@b\" /><img alt=\"@c\" />" 1 false [0, 3, 1]
    (by decide) (by decide) (by decide) (by decide) (by decide) (by decide) (by decide)
    (by decide) (by decide)

/-- Witness of C10: user `u` of the sample network has the repository `u/r`,
whose commit list names `c@x.com`, `d@x.com` and `c@x.com` again; user `v` has
no repository. -/
theorem ExtractFromActivity_records_commit_emails_witness :
    ExtractFromActivity sampleNetwork "u" initial =
        Outcome.ok true
          ⟨⟨["c@x.com", "d@x.com"], false, false, 0⟩,
           ["https://api.github.com/users/u/repos?type=owner&sort=updated",
            "https://api.github.com/repos/u/r/commits"], []⟩
    ∧ ExtractFromActivity sampleNetwork "v" initial =
        Outcome.ok false
          ⟨initial.getter, ["https://api.github.com/users/v/repos?type=owner&sort=updated"],
            []⟩ :=
  ⟨((ExtractFromActivity_records_commit_emails sampleNetwork "u"
      "[\x7b\"full_name\": \"u/r\", \"fork\": false\x7d]" initial rfl (by decide)).1
      "u/r" "\"email\": \"c@x.com\", \"email\": \"d@x.com\", \"email\": \"c@x.com\","
      (by decide) (by decide)).1,
   (ExtractFromActivity_records_commit_emails sampleNetwork "v" "[]" initial rfl
      (by decide)).2 (by decide)⟩

end Emailgetter
